import Mathlib

/-!
Verification development for the KEGGX graph-construction core
(`keggx/keggx.py`).  The Python module converts a KGML pathway document
into a node table and an edge table.  Below, each Python routine that the
claims depend on is embedded as an executable Lean definition:

* `populateEdgeAttributes`   — `KEGG._populate_edge_attributes`
* `edgesFromReaction(s)`     — `KEGG._get_edge_attributes_from_reactions`
* `edgesFromRelation(s)`     — `KEGG._get_edge_attributes_from_relations`
* `dedupRelations`           — the dedup loop of `KEGG._get_edge_attributes_as_dataframe`
* `replaceGroupEdges`        — `KEGG._replace_group_edges`
* `directedEdges`            — `KEGG._get_directed_edge_attributes_as_dataframe`
* `inferGeneEdges`           — `KEGG._infer_gene_edges_from_reactions`
* `buildHeader`              — the parsing done in `KEGG.__init__` /
                               `KEGG._get_entry_attributes_as_dataframe`
-/

namespace KEGGX

/-- One row of the edge table.  Columns follow
`self.edge_columns = ['source', 'target', 'effect', 'indirect', 'modification', 'type']`.
`effect` is the signed orientation code (0 unknown, 1 activating, -1 inhibiting,
2 bidirectional); in the consolidated inferred-edge table it is reused as a count. -/
structure EdgeAttrs where
  source : String
  target : String
  effect : Int
  indirect : Int
  modification : String
  type : String
deriving DecidableEq, Repr

/-- First loop of `_populate_edge_attributes` (coarse orientation descriptors). -/
def coarseStep (a : EdgeAttrs) (d : String) : EdgeAttrs :=
  if d = "binding/association" then { a with effect := 2 }
  else if d = "protein complex" then { a with effect := 2 }
  else if d = "bidirected" then { a with effect := 2 }
  else if d = "dissociation" then { a with effect := 1 }
  else if d = "missing interaction" then { a with effect := 0 }
  else if d = "indirect effect" then { a with effect := 1, indirect := 1 }
  else a

/-- Second loop of `_populate_edge_attributes` (chemical-modification descriptors). -/
def modStep (a : EdgeAttrs) (d : String) : EdgeAttrs :=
  if d = "phosphorylation" then { a with effect := 1, modification := "+p" }
  else if d = "dephosphorylation" then { a with effect := 1, modification := "-p" }
  else if d = "glycosylation" then { a with effect := 1, modification := "+g" }
  else if d = "ubiquitination" then { a with effect := 1, modification := "+u" }
  else if d = "methylation" then { a with effect := 1, modification := "+m" }
  else a

/-- Third loop of `_populate_edge_attributes` (fine orientation descriptors). -/
def fineStep (a : EdgeAttrs) (d : String) : EdgeAttrs :=
  if d = "activation" then { a with effect := 1 }
  else if d = "inhibition" then { a with effect := -1 }
  else if d = "expression" then { a with effect := 1, modification := "e" }
  else if d = "repression" then { a with effect := -1, modification := "e" }
  else a

/-- `KEGG._populate_edge_attributes`: starts from
`{'effect': 0, 'indirect': 0, 'modification': ""}` and runs the three
descriptor loops in order, later loops overwriting earlier ones. -/
def populateEdgeAttributes (source target ty : String) (interactions : List String) : EdgeAttrs :=
  let a0 : EdgeAttrs := ⟨source, target, 0, 0, "", ty⟩
  let a1 := interactions.foldl coarseStep a0
  let a2 := interactions.foldl modStep a1
  interactions.foldl fineStep a2

/-- A descriptor recognized by at least one of the three classifier loops. -/
def isRecognizedDescriptor (d : String) : Bool :=
  decide (d = "binding/association" ∨ d = "protein complex" ∨ d = "bidirected" ∨
    d = "dissociation" ∨ d = "missing interaction" ∨ d = "indirect effect" ∨
    d = "phosphorylation" ∨ d = "dephosphorylation" ∨ d = "glycosylation" ∨
    d = "ubiquitination" ∨ d = "methylation" ∨
    d = "activation" ∨ d = "inhibition" ∨ d = "expression" ∨ d = "repression")

lemma coarseStep_unrecognized (a : EdgeAttrs) (d : String)
    (h : isRecognizedDescriptor d = false) : coarseStep a d = a := by
  simp only [isRecognizedDescriptor, decide_eq_false_iff_not, not_or] at h
  obtain ⟨h1, h2, h3, h4, h5, h6, h7, h8, h9, h10, h11, h12, h13, h14, h15⟩ := h
  simp [coarseStep, h1, h2, h3, h4, h5, h6]

lemma modStep_unrecognized (a : EdgeAttrs) (d : String)
    (h : isRecognizedDescriptor d = false) : modStep a d = a := by
  simp only [isRecognizedDescriptor, decide_eq_false_iff_not, not_or] at h
  obtain ⟨h1, h2, h3, h4, h5, h6, h7, h8, h9, h10, h11, h12, h13, h14, h15⟩ := h
  simp [modStep, h7, h8, h9, h10, h11]

lemma fineStep_unrecognized (a : EdgeAttrs) (d : String)
    (h : isRecognizedDescriptor d = false) : fineStep a d = a := by
  simp only [isRecognizedDescriptor, decide_eq_false_iff_not, not_or] at h
  obtain ⟨h1, h2, h3, h4, h5, h6, h7, h8, h9, h10, h11, h12, h13, h14, h15⟩ := h
  simp [fineStep, h12, h13, h14, h15]

lemma foldl_filter_recognized (step : EdgeAttrs → String → EdgeAttrs)
    (hstep : ∀ a d, isRecognizedDescriptor d = false → step a d = a) :
    ∀ (ds : List String) (a : EdgeAttrs),
      (ds.filter isRecognizedDescriptor).foldl step a = ds.foldl step a := by
  intro ds
  induction ds with
  | nil => intro a; rfl
  | cons d ds ih =>
    intro a
    by_cases h : isRecognizedDescriptor d = true
    · simp only [List.filter_cons_of_pos h, List.foldl_cons]
      exact ih (step a d)
    · have hf : isRecognizedDescriptor d = false := by
        cases hv : isRecognizedDescriptor d
        · rfl
        · exact absurd hv h
      rw [List.filter_cons_of_neg (by simp [hf]), ih a, List.foldl_cons, hstep a d hf]

/-- C1: the classifier is the three-pass priority-ordered rule application:
(1) it equals the composition coarse-pass, then modification-pass, then
fine-pass, each a left fold over the descriptor list; (2) classifying
`["phosphorylation", "inhibition"]` yields `effect = -1` (inhibiting) while
keeping the modification tag `"+p"` set by the modification pass; (3) any
descriptor recognized by no pass is ignored: deleting all unrecognized
descriptors does not change the classification. -/
theorem C1_classifier_three_pass :
    (∀ s t ty ds, populateEdgeAttributes s t ty ds =
      ds.foldl fineStep (ds.foldl modStep (ds.foldl coarseStep ⟨s, t, 0, 0, "", ty⟩))) ∧
    (∀ s t ty, populateEdgeAttributes s t ty ["phosphorylation", "inhibition"] =
      ⟨s, t, -1, 0, "+p", ty⟩) ∧
    (∀ s t ty ds, populateEdgeAttributes s t ty (ds.filter isRecognizedDescriptor) =
      populateEdgeAttributes s t ty ds) := by
  refine ⟨fun s t ty ds => rfl, fun s t ty => rfl, fun s t ty ds => ?_⟩
  simp only [populateEdgeAttributes]
  rw [foldl_filter_recognized coarseStep coarseStep_unrecognized,
    foldl_filter_recognized modStep modStep_unrecognized,
    foldl_filter_recognized fineStep fineStep_unrecognized]

/-- One KGML reaction element: its `id` attribute names the compound entry,
`name`/`type` are the reaction name and reversibility, and the substrate and
product child elements contribute their `id` attributes. -/
structure Reaction where
  id : String
  name : String
  rtype : String
  substrates : List String
  products : List String
deriving DecidableEq, Repr

/-- `KEGG._get_edge_attributes_from_reactions`, body of the loop for a single
reaction element: substrate edges first (direction depending on
`reaction_type == 'irreversible'`), then compound → product edges, each
classified with descriptor list `['activation']`. -/
def edgesFromReaction (r : Reaction) : List EdgeAttrs :=
  (r.substrates.map fun s =>
    if r.rtype = "irreversible" then populateEdgeAttributes s r.id r.name ["activation"]
    else populateEdgeAttributes r.id s r.name ["activation"]) ++
  (r.products.map fun p => populateEdgeAttributes r.id p r.name ["activation"])

/-- `KEGG._get_edge_attributes_from_reactions` over the document's reaction list. -/
def edgesFromReactions (rs : List Reaction) : List EdgeAttrs :=
  rs.flatMap edgesFromReaction

/-- One KGML relation subtype element (`name` and `value` attributes). -/
structure SubtypeRec where
  name : String
  value : String
deriving DecidableEq, Repr

/-- One KGML relation element: endpoints `entry1`/`entry2`, category `type`,
and its subtype children. -/
structure RelationRec where
  entry1 : String
  entry2 : String
  rtype : String
  subtypes : List SubtypeRec
deriving DecidableEq, Repr

/-- `KEGG._get_edge_attributes_from_relations`, body of the loop for a single
relation element: recognized categories only; a `compound` descriptor splits
the relation into two edges through the compound id found on the first
subtype named `compound`. -/
def edgesFromRelation (r : RelationRec) : List EdgeAttrs :=
  let descriptors := r.subtypes.map (fun s => s.name)
  if r.rtype = "ECrel" ∨ r.rtype = "PPrel" ∨ r.rtype = "GErel" ∨ r.rtype = "PCrel" then
    if "compound" ∈ descriptors then
      match r.subtypes.find? (fun s => s.name = "compound") with
      | some s =>
          [populateEdgeAttributes r.entry1 s.value r.rtype descriptors,
           populateEdgeAttributes s.value r.entry2 r.rtype descriptors]
      | none => []
    else
      [populateEdgeAttributes r.entry1 r.entry2 r.rtype descriptors]
  else []

/-- `KEGG._get_edge_attributes_from_relations` over the document's relation list. -/
def edgesFromRelations (rs : List RelationRec) : List EdgeAttrs :=
  rs.flatMap edgesFromRelation

/-- C2: each substrate of a reaction yields exactly one edge —
`substrate → compound` when the reaction type is `irreversible`, else
`compound → substrate` — and each product yields exactly one edge
`compound → product`; every reaction edge is classified with descriptor
list `["activation"]`, which gives `effect = 1` (activating); the document
with one irreversible reaction (substrate S, product P, compound C)
yields exactly the edges S→C and C→P, both activating. -/
theorem C2_reaction_edges :
    (∀ r : Reaction,
      (edgesFromReaction r).length = r.substrates.length + r.products.length ∧
      (∀ s ∈ r.substrates,
        (if r.rtype = "irreversible" then populateEdgeAttributes s r.id r.name ["activation"]
         else populateEdgeAttributes r.id s r.name ["activation"]) ∈ edgesFromReaction r) ∧
      (∀ p ∈ r.products,
        populateEdgeAttributes r.id p r.name ["activation"] ∈ edgesFromReaction r)) ∧
    (∀ s t ty, populateEdgeAttributes s t ty ["activation"] = ⟨s, t, 1, 0, "", ty⟩) ∧
    edgesFromReactions [⟨"C", "rn1", "irreversible", ["S"], ["P"]⟩] =
      [⟨"S", "C", 1, 0, "", "rn1"⟩, ⟨"C", "P", 1, 0, "", "rn1"⟩] := by
  refine ⟨fun r => ⟨?_, fun s hs => ?_, fun p hp => ?_⟩, fun s t ty => rfl, rfl⟩
  · simp [edgesFromReaction]
  · exact List.mem_append_left _ (List.mem_map_of_mem _ hs)
  · exact List.mem_append_right _ (List.mem_map_of_mem _ hp)

/-- Witness for C2 at a concrete reaction, discharging the membership
hypotheses at substrate `"S"` and product `"P"`. -/
theorem C2_reaction_edges_witness :
    (if ("irreversible" : String) = "irreversible"
      then populateEdgeAttributes "S" "C" "rn1" ["activation"]
      else populateEdgeAttributes "C" "S" "rn1" ["activation"]) ∈
        edgesFromReaction ⟨"C", "rn1", "irreversible", ["S"], ["P"]⟩ ∧
    populateEdgeAttributes "C" "P" "rn1" ["activation"] ∈
        edgesFromReaction ⟨"C", "rn1", "irreversible", ["S"], ["P"]⟩ :=
  ⟨(C2_reaction_edges.1 ⟨"C", "rn1", "irreversible", ["S"], ["P"]⟩).2.1 "S" (by decide),
   (C2_reaction_edges.1 ⟨"C", "rn1", "irreversible", ["S"], ["P"]⟩).2.2 "P" (by decide)⟩

/-- C9: relations of a recognized category (`ECrel`, `PPrel`, `GErel`,
`PCrel`) without a `compound` descriptor yield exactly one edge
entry1 → entry2; with a `compound` descriptor they yield exactly the two
edges entry1 → compound and compound → entry2, where the compound id is the
`value` attribute of the subtype named `compound`; relations of any other
category yield no edges. -/
theorem C9_relation_edges (r : RelationRec) :
    (r.rtype = "ECrel" ∨ r.rtype = "PPrel" ∨ r.rtype = "GErel" ∨ r.rtype = "PCrel" →
      ("compound" ∉ r.subtypes.map (fun s => s.name) →
        edgesFromRelation r =
          [populateEdgeAttributes r.entry1 r.entry2 r.rtype (r.subtypes.map (fun s => s.name))]) ∧
      ("compound" ∈ r.subtypes.map (fun s => s.name) →
        ∃ s, r.subtypes.find? (fun s => s.name = "compound") = some s ∧ s.name = "compound" ∧
          edgesFromRelation r =
            [populateEdgeAttributes r.entry1 s.value r.rtype (r.subtypes.map (fun s => s.name)),
             populateEdgeAttributes s.value r.entry2 r.rtype (r.subtypes.map (fun s => s.name))])) ∧
    (¬(r.rtype = "ECrel" ∨ r.rtype = "PPrel" ∨ r.rtype = "GErel" ∨ r.rtype = "PCrel") →
      edgesFromRelation r = []) := by
  constructor
  · intro hrec
    constructor
    · intro hnc
      simp [edgesFromRelation, hrec, hnc]
    · intro hc
      obtain ⟨s, hs, hname⟩ := List.mem_map.mp hc
      have hfind : ∃ u, r.subtypes.find? (fun s => s.name = "compound") = some u := by
        have : (r.subtypes.find? (fun s => s.name = "compound")).isSome := by
          apply List.find?_isSome.mpr
          exact ⟨s, hs, by simp [hname]⟩
        exact Option.isSome_iff_exists.mp this
      obtain ⟨u, hu⟩ := hfind
      refine ⟨u, hu, ?_, ?_⟩
      · have := List.find?_some hu
        simpa using this
      · simp [edgesFromRelation, hrec, hc, hu]
  · intro hrec
    simp [edgesFromRelation, hrec]

/-- Witness for C9 at concrete relations: a recognized `PPrel` relation with
descriptors `[phosphorylation]` (no compound) gives one direct edge; a
recognized `PPrel` relation with a compound subtype of value `"7"` gives the
two split edges; an unrecognized `maplink` relation gives none. -/
theorem C9_relation_edges_witness :
    edgesFromRelation ⟨"1", "2", "PPrel", [⟨"phosphorylation", "+p"⟩]⟩ =
      [populateEdgeAttributes "1" "2" "PPrel" ["phosphorylation"]] ∧
    edgesFromRelation ⟨"1", "2", "PPrel", [⟨"compound", "7"⟩]⟩ =
      [populateEdgeAttributes "1" "7" "PPrel" ["compound"],
       populateEdgeAttributes "7" "2" "PPrel" ["compound"]] ∧
    edgesFromRelation ⟨"1", "2", "maplink", []⟩ = [] := by
  refine ⟨(C9_relation_edges ⟨"1", "2", "PPrel", [⟨"phosphorylation", "+p"⟩]⟩).1
      (by decide) |>.1 (by decide), ?_, ?_⟩
  · obtain ⟨s, hs, hname, hedges⟩ :=
      (C9_relation_edges ⟨"1", "2", "PPrel", [⟨"compound", "7"⟩]⟩).1 (by decide) |>.2 (by decide)
    have : s = ⟨"compound", "7"⟩ := by
      have h7 : List.find? (fun s => decide (s.name = "compound")) [⟨"compound", "7"⟩] =
          some (⟨"compound", "7"⟩ : SubtypeRec) := by decide
      rw [show (List.find? (fun s => s.name = "compound")
          ([⟨"compound", "7"⟩] : List SubtypeRec)) = some ⟨"compound", "7"⟩ from h7] at hs
      exact (Option.some_injective _ hs).symm
    rw [this] at hedges
    exact hedges
  · exact (C9_relation_edges ⟨"1", "2", "maplink", []⟩).2 (by decide)

/-- Python `set([e1.source, e1.target]) == set([e2.source, e2.target])`:
the two edges connect the same unordered pair of endpoints. -/
def sameEnds (e1 e2 : EdgeAttrs) : Bool :=
  decide ((e1.source = e2.source ∧ e1.target = e2.target) ∨
    (e1.source = e2.target ∧ e1.target = e2.source))

/-- The edge connects the unordered endpoint pair `{a, b}`. -/
def pairMatches (e : EdgeAttrs) (a b : String) : Bool :=
  decide ((e.source = a ∧ e.target = b) ∨ (e.source = b ∧ e.target = a))

lemma sameEnds_refl (e : EdgeAttrs) : sameEnds e e = true := by
  simp [sameEnds]

lemma sameEnds_symm (e1 e2 : EdgeAttrs) : sameEnds e1 e2 = sameEnds e2 e1 := by
  simp only [sameEnds, decide_eq_decide]
  constructor
  · rintro (⟨h1, h2⟩ | ⟨h1, h2⟩)
    · exact Or.inl ⟨h1.symm, h2.symm⟩
    · exact Or.inr ⟨h2.symm, h1.symm⟩
  · rintro (⟨h1, h2⟩ | ⟨h1, h2⟩)
    · exact Or.inl ⟨h1.symm, h2.symm⟩
    · exact Or.inr ⟨h2.symm, h1.symm⟩

lemma sameEnds_trans {e1 e2 e3 : EdgeAttrs} (h : sameEnds e1 e2 = true)
    (g : sameEnds e2 e3 = true) : sameEnds e1 e3 = true := by
  simp only [sameEnds, decide_eq_true_eq] at h g ⊢
  rcases h with ⟨h1, h2⟩ | ⟨h1, h2⟩ <;> rcases g with ⟨g1, g2⟩ | ⟨g1, g2⟩
  · exact Or.inl ⟨h1.trans g1, h2.trans g2⟩
  · exact Or.inr ⟨h1.trans g1, h2.trans g2⟩
  · exact Or.inr ⟨h1.trans g2, h2.trans g1⟩
  · exact Or.inl ⟨h1.trans g2, h2.trans g1⟩

lemma pairMatches_eq_sameEnds (e1 e2 : EdgeAttrs) :
    pairMatches e1 e2.source e2.target = sameEnds e1 e2 := rfl

/-- The dedup loop of `KEGG._get_edge_attributes_as_dataframe`: the
accumulator starts as the reaction-edge list; each relation edge is appended
only if no existing edge (reaction or previously kept relation) connects the
same unordered endpoint pair. -/
def dedupRelations (acc : List EdgeAttrs) : List EdgeAttrs → List EdgeAttrs
  | [] => acc
  | rel :: rest =>
    if acc.any (fun e => sameEnds e rel) then dedupRelations acc rest
    else dedupRelations (acc ++ [rel]) rest

lemma dedupRelations_spec :
    ∀ (rels acc : List EdgeAttrs), ∃ kept,
      dedupRelations acc rels = acc ++ kept ∧
      kept.Sublist rels ∧
      (∀ k ∈ kept, ∀ a ∈ acc, sameEnds a k = false) ∧
      (∀ x, kept.countP (fun e => sameEnds e x) ≤ 1) := by
  intro rels
  induction rels with
  | nil => exact fun acc => ⟨[], by simp [dedupRelations], List.Sublist.refl _, by simp, by simp⟩
  | cons rel rest ih =>
    intro acc
    cases hb : acc.any (fun e => sameEnds e rel) with
    | true =>
      obtain ⟨kept, heq, hsub, hnew, hcount⟩ := ih acc
      exact ⟨kept, by simp [dedupRelations, hb, heq], hsub.cons rel, hnew, hcount⟩
    | false =>
      have hall : ∀ a ∈ acc, sameEnds a rel = false := by
        intro a ha
        have := List.any_eq_false.mp hb a ha
        simpa using this
      obtain ⟨kept, heq, hsub, hnew, hcount⟩ := ih (acc ++ [rel])
      refine ⟨rel :: kept, ?_, hsub.cons₂ rel, ?_, ?_⟩
      · simp only [dedupRelations, hb, Bool.false_eq_true, if_false]
        rw [heq, List.append_assoc]
        rfl
      · intro k hk a ha
        rcases List.mem_cons.mp hk with rfl | hk'
        · exact hall a ha
        · exact hnew k hk' a (List.mem_append_left _ ha)
      · intro x
        rw [List.countP_cons]
        cases hx : sameEnds rel x with
        | true =>
          have hzero : kept.countP (fun e => sameEnds e x) = 0 := by
            rw [List.countP_eq_zero]
            intro k hk
            have hkrel : sameEnds rel k = false :=
              hnew k hk rel (List.mem_append_right _ (List.mem_singleton_self rel))
            simp only [Bool.not_eq_true]
            cases hkx : sameEnds k x with
            | true =>
              have : sameEnds rel k = true :=
                sameEnds_trans hx (sameEnds_symm k x ▸ hkx)
              rw [this] at hkrel
              exact absurd hkrel (by decide)
            | false => rfl
          simp [hzero, hx]
        | false => simpa [hx] using hcount x

lemma dedupRelations_mem_acc {acc : List EdgeAttrs} (rels : List EdgeAttrs)
    {e : EdgeAttrs} (he : e ∈ acc) : e ∈ dedupRelations acc rels := by
  obtain ⟨kept, heq, _, _, _⟩ := dedupRelations_spec rels acc
  rw [heq]
  exact List.mem_append_left _ he

lemma dedupRelations_first_wins :
    ∀ (l1 l2 : List EdgeAttrs) (rel : EdgeAttrs) (acc : List EdgeAttrs),
      (∀ a ∈ acc, sameEnds a rel = false) →
      (∀ x ∈ l1, sameEnds x rel = false) →
      rel ∈ dedupRelations acc (l1 ++ rel :: l2) := by
  intro l1
  induction l1 with
  | nil =>
    intro l2 rel acc hacc _
    have hb : acc.any (fun e => sameEnds e rel) = false :=
      List.any_eq_false.mpr fun a ha => by simp [hacc a ha]
    rw [List.nil_append]
    simp only [dedupRelations, hb, Bool.false_eq_true, if_false]
    exact dedupRelations_mem_acc l2
      (List.mem_append_right _ (List.mem_singleton_self rel))
  | cons x l1 ih =>
    intro l2 rel acc hacc hl1
    have hxrel : sameEnds x rel = false := hl1 x (List.mem_cons_self x l1)
    rw [List.cons_append]
    cases hb : acc.any (fun e => sameEnds e x) with
    | true =>
      simp only [dedupRelations, hb, if_true]
      exact ih l2 rel acc hacc fun y hy => hl1 y (List.mem_cons_of_mem x hy)
    | false =>
      simp only [dedupRelations, hb, Bool.false_eq_true, if_false]
      refine ih l2 rel (acc ++ [x]) ?_ fun y hy => hl1 y (List.mem_cons_of_mem x hy)
      intro a ha
      rcases List.mem_append.mp ha with h | h
      · exact hacc a h
      · rw [List.mem_singleton.mp h]
        exact hxrel

/-- C3: reaction provenance wins over relation provenance in the assembled
edge list (the list built by `_get_edge_attributes_as_dataframe` before group
expansion): every reaction-derived edge survives, and for any unordered
endpoint pair `{a, b}` covered by some reaction-derived edge, every edge of
the assembled list connecting `{a, b}` — in either orientation — is one of
the reaction-derived edges, so no relation-derived edge over that pair
survives. -/
theorem C3_reaction_priority (rxnEdges relEdges : List EdgeAttrs) :
    (∀ e ∈ rxnEdges, e ∈ dedupRelations rxnEdges relEdges) ∧
    (∀ a b, (∃ r ∈ rxnEdges, pairMatches r a b = true) →
      ∀ e ∈ dedupRelations rxnEdges relEdges, pairMatches e a b = true →
        e ∈ rxnEdges) := by
  obtain ⟨kept, heq, hsub, hnew, hcount⟩ := dedupRelations_spec relEdges rxnEdges
  constructor
  · intro e he
    rw [heq]
    exact List.mem_append_left _ he
  · rintro a b ⟨r, hr, hrab⟩ e he heab
    rw [heq] at he
    rcases List.mem_append.mp he with h | hker
    · exact h
    · exfalso
      have h1 : sameEnds r (⟨a, b, 0, 0, "", ""⟩ : EdgeAttrs) = true := hrab
      have h2 : sameEnds e (⟨a, b, 0, 0, "", ""⟩ : EdgeAttrs) = true := heab
      have h3 : sameEnds r e = true :=
        sameEnds_trans h1 (sameEnds_symm e ⟨a, b, 0, 0, "", ""⟩ ▸ h2)
      have h4 := hnew e hker r hr
      rw [h3] at h4
      exact absurd h4 (by decide)

/-- Witness for C3 at a concrete input: one reaction edge 1→2 and one
relation edge 2→1 over the same unordered pair; the reaction edge survives
assembly, and any assembled edge over `{1, 2}` is the reaction edge. -/
theorem C3_reaction_priority_witness :
    populateEdgeAttributes "1" "2" "rn1" ["activation"] ∈
      dedupRelations [populateEdgeAttributes "1" "2" "rn1" ["activation"]]
        [populateEdgeAttributes "2" "1" "PPrel" ["inhibition"]] ∧
    (∀ e ∈ dedupRelations [populateEdgeAttributes "1" "2" "rn1" ["activation"]]
        [populateEdgeAttributes "2" "1" "PPrel" ["inhibition"]],
      pairMatches e "1" "2" = true →
        e ∈ [populateEdgeAttributes "1" "2" "rn1" ["activation"]]) :=
  ⟨(C3_reaction_priority _ _).1 _ (List.mem_singleton_self _),
   fun e he hp => (C3_reaction_priority _ _).2 "1" "2"
     ⟨populateEdgeAttributes "1" "2" "rn1" ["activation"],
      List.mem_singleton_self _, by decide⟩ e he hp⟩

/-- C10 (implicit): the dedup loop is not limited to reaction-versus-relation
priority.  The assembled list is exactly the reaction edges (all kept, never
deduplicated against each other, duplicates included) followed by a
subsequence `kept` of the relation edges in document order, in which (i) no
kept relation edge shares an unordered endpoint pair with any reaction edge,
(ii) at most one kept relation edge connects any unordered pair, and (iii)
the first relation edge in document order whose pair clashes with no
reaction edge and with no earlier relation edge is kept. -/
theorem C10_dedup_scope (rxnEdges relEdges : List EdgeAttrs) :
    ∃ kept,
      dedupRelations rxnEdges relEdges = rxnEdges ++ kept ∧
      kept.Sublist relEdges ∧
      (∀ k ∈ kept, ∀ r ∈ rxnEdges, sameEnds r k = false) ∧
      (∀ x, kept.countP (fun e => sameEnds e x) ≤ 1) ∧
      (∀ l1 rel l2, relEdges = l1 ++ rel :: l2 →
        (∀ r ∈ rxnEdges, sameEnds r rel = false) →
        (∀ x ∈ l1, sameEnds x rel = false) →
        rel ∈ dedupRelations rxnEdges relEdges) := by
  obtain ⟨kept, heq, hsub, hnew, hcount⟩ := dedupRelations_spec relEdges rxnEdges
  exact ⟨kept, heq, hsub, hnew, hcount, fun l1 rel l2 hrels hrxn hl1 =>
    hrels ▸ dedupRelations_first_wins l1 l2 rel rxnEdges hrxn hl1⟩

/-- Witness for C10 at a concrete input: two relation edges over the same
unordered pair behind one reaction edge over a different pair; the theorem's
first-wins clause applies with its hypotheses discharged concretely and
places the first relation edge in the assembled list. -/
theorem C10_dedup_scope_witness :
    populateEdgeAttributes "3" "4" "PPrel" ["activation"] ∈
      dedupRelations [populateEdgeAttributes "1" "2" "rn1" ["activation"]]
        [populateEdgeAttributes "3" "4" "PPrel" ["activation"],
         populateEdgeAttributes "4" "3" "PPrel" ["inhibition"]] := by
  obtain ⟨kept, heq, hsub, hnew, hcount, hfirst⟩ :=
    C10_dedup_scope [populateEdgeAttributes "1" "2" "rn1" ["activation"]]
      [populateEdgeAttributes "3" "4" "PPrel" ["activation"],
       populateEdgeAttributes "4" "3" "PPrel" ["inhibition"]]
  exact hfirst [] (populateEdgeAttributes "3" "4" "PPrel" ["activation"])
    [populateEdgeAttributes "4" "3" "PPrel" ["inhibition"]] rfl
    (by decide) (by decide)

/-- One KGML group entry: its `id` attribute and the `id` attributes of its
component children. -/
structure GroupRec where
  id : String
  members : List String
deriving DecidableEq, Repr

/-- The column selected by one iteration of the `for node_type in ['source',
'target']` loop in `_replace_group_edges`. -/
def endpointOf (isSource : Bool) (e : EdgeAttrs) : String :=
  if isSource then e.source else e.target

/-- Overwrite the selected column. -/
def setEndpoint (isSource : Bool) (m : String) (e : EdgeAttrs) : EdgeAttrs :=
  if isSource then { e with source := m } else { e with target := m }

/-- One iteration of the endpoint loop of `_replace_group_edges`: rows whose
selected column equals the group id are each duplicated once per member with
the column overwritten by the members in turn (`concat([edges_with]*k)
.sort_index()` followed by the cyclic member assignment), and are placed
before the untouched rows (`concat([expanded_edges_df, edges_without_df])`). -/
def expandEndpoint (isSource : Bool) (gid : String) (members : List String)
    (edges : List EdgeAttrs) : List EdgeAttrs :=
  ((edges.filter fun e => endpointOf isSource e == gid).flatMap
    fun e => members.map fun m => setEndpoint isSource m e) ++
  (edges.filter fun e => !(endpointOf isSource e == gid))

/-- `itertools.combinations(members, 2)` in order. -/
def pairCombinations : List String → List (String × String)
  | [] => []
  | x :: xs => (xs.map fun y => (x, y)) ++ pairCombinations xs

/-- Body of the per-group loop of `_replace_group_edges`: expand the source
column, then the target column, then append one `PComplex` edge per unordered
member pair. -/
def replaceGroupForOne (g : GroupRec) (edges : List EdgeAttrs) : List EdgeAttrs :=
  expandEndpoint false g.id g.members (expandEndpoint true g.id g.members edges) ++
  (pairCombinations g.members).map
    (fun p => populateEdgeAttributes p.1 p.2 "PComplex" ["protein complex"])

/-- `KEGG._replace_group_edges` over the document's group list. -/
def replaceGroupEdges (groups : List GroupRec) (edges : List EdgeAttrs) : List EdgeAttrs :=
  groups.foldl (fun acc g => replaceGroupForOne g acc) edges

/-- Number of edges one original edge becomes under the expansion of a group
with `k` members: `k` per endpoint equal to the group id (so `k * k` when
both endpoints are the group id). -/
def expansionFactor (gid : String) (k : Nat) (e : EdgeAttrs) : Nat :=
  (if e.source == gid then k else 1) * (if e.target == gid then k else 1)

/-- Per-edge form of one endpoint expansion, used to reason about
`expandEndpoint` up to permutation. -/
def expandOne (isSource : Bool) (gid : String) (members : List String)
    (e : EdgeAttrs) : List EdgeAttrs :=
  if endpointOf isSource e == gid then members.map (fun m => setEndpoint isSource m e)
  else [e]

lemma expandEndpoint_perm (isS : Bool) (gid : String) (ms : List String) :
    ∀ edges : List EdgeAttrs,
      (expandEndpoint isS gid ms edges).Perm (edges.flatMap (expandOne isS gid ms)) := by
  intro edges
  induction edges with
  | nil => simp [expandEndpoint]
  | cons e rest ih =>
    cases hb : endpointOf isS e == gid with
    | true =>
      simp only [expandEndpoint, List.filter_cons, hb, Bool.not_true, Bool.false_eq_true,
        if_true, if_false, List.flatMap_cons, List.append_assoc, expandOne]
      exact List.Perm.append_left _ ih
    | false =>
      simp only [expandEndpoint, List.filter_cons, hb, Bool.not_false, Bool.false_eq_true,
        if_true, if_false, List.flatMap_cons, expandOne]
      exact List.perm_middle.trans (ih.cons e)

lemma sum_flatMap_nat {α : Type} (l : List α) (f : α → List Nat) :
    (l.flatMap f).sum = (l.map fun a => (f a).sum).sum := by
  induction l with
  | nil => rfl
  | cons a l ih => simp [List.flatMap_cons, List.sum_append, ih]

lemma sum_map_const_nat {α : Type} (l : List α) (c : Nat) :
    (l.map fun _ => c).sum = l.length * c := by
  induction l with
  | nil => simp
  | cons a l ih => simp [ih, Nat.succ_mul]; omega

lemma expandEndpoint_length (isS : Bool) (gid : String) (ms : List String)
    (L : List EdgeAttrs) :
    (expandEndpoint isS gid ms L).length =
      (L.map fun e => if endpointOf isS e == gid then ms.length else 1).sum := by
  rw [(expandEndpoint_perm isS gid ms L).length_eq, List.length_flatMap]
  congr 1
  apply List.map_congr_left
  intro e _
  cases hb : endpointOf isS e == gid with
  | true => simp [expandOne, hb]
  | false => simp [expandOne, hb]

lemma pass2_weight_sum (gid : String) (ms : List String) (edges : List EdgeAttrs) :
    ((expandEndpoint true gid ms edges).map
        fun e => if endpointOf false e == gid then ms.length else 1).sum =
      (edges.map (expansionFactor gid ms.length)).sum := by
  rw [((expandEndpoint_perm true gid ms edges).map _).sum_eq, List.map_flatMap,
    sum_flatMap_nat]
  congr 1
  apply List.map_congr_left
  intro e _
  cases hb : e.source == gid with
  | true =>
    have : (endpointOf true e == gid) = true := hb
    simp only [expandOne, this, if_true, List.map_map]
    have hmap : ∀ m : String,
        ((fun e => if endpointOf false e == gid then ms.length else 1) ∘
          fun m => setEndpoint true m e) m =
        (if e.target == gid then ms.length else 1) := fun m => rfl
    rw [List.map_congr_left fun m _ => hmap m, sum_map_const_nat]
    simp [expansionFactor, hb]
  | false =>
    have : (endpointOf true e == gid) = false := hb
    simp only [expandOne, this, Bool.false_eq_true, if_false]
    simp [expansionFactor, hb, endpointOf]

lemma pairCombinations_succ_arith (n : Nat) : (n + 1) * n / 2 = n * (n - 1) / 2 + n := by
  cases n with
  | zero => rfl
  | succ m =>
    have h : (m + 2) * (m + 1) = (m + 1) * m + (m + 1) * 2 := by ring
    rw [Nat.succ_sub_one, h, Nat.add_mul_div_right _ _ (by norm_num)]

lemma pairCombinations_length (l : List String) :
    (pairCombinations l).length = l.length * (l.length - 1) / 2 := by
  induction l with
  | nil => rfl
  | cons x xs ih =>
    simp only [pairCombinations, List.length_append, List.length_map, ih, List.length_cons,
      Nat.add_sub_cancel]
    rw [pairCombinations_succ_arith xs.length]
    omega

lemma mem_expandEndpoint_untouched {isS : Bool} {gid : String} {ms : List String}
    {L : List EdgeAttrs} {e : EdgeAttrs} (he : e ∈ L)
    (hne : (endpointOf isS e == gid) = false) : e ∈ expandEndpoint isS gid ms L :=
  List.mem_append_right _ (List.mem_filter.mpr ⟨he, by simp [hne]⟩)

lemma mem_expandEndpoint_expanded {isS : Bool} {gid : String} {ms : List String}
    {L : List EdgeAttrs} {e : EdgeAttrs} {m : String} (he : e ∈ L)
    (hg : (endpointOf isS e == gid) = true) (hm : m ∈ ms) :
    setEndpoint isS m e ∈ expandEndpoint isS gid ms L :=
  List.mem_append_left _
    (List.mem_flatMap.mpr ⟨e, List.mem_filter.mpr ⟨he, hg⟩, List.mem_map_of_mem _ hm⟩)

/-- C4 counterexample: the claim says every edge whose source or target is
the group id is replaced by exactly `k` edges.  For the group 99 with the 3
members `[1, 2, 3]` and the single edge 99→99 (both endpoints the group id),
the code replaces the edge by 3 × 3 = 9 edges, so the resulting table has
9 + 3 intra-group edges = 12 rows, not the 3 + 3 = 6 the claim predicts. -/
theorem C4_group_expansion_counterexample :
    (replaceGroupForOne ⟨"99", ["1", "2", "3"]⟩
      [populateEdgeAttributes "99" "99" "PPrel" ["activation"]]).length = 12 ∧
    (12 : Nat) ≠ 3 + 3 := by
  exact ⟨rfl, by decide⟩

/-- C4 amended: for a group with `k` members, each edge gains a factor `k`
per endpoint equal to the group id — so an edge touching the group id in
exactly one endpoint becomes exactly `k` edges (the group endpoint replaced
by each member in turn, other attributes unchanged), while an edge with both
endpoints equal to the group id becomes `k * k` edges; exactly
`k * (k-1) / 2` intra-group edges over all unordered member pairs are added,
classified as a protein complex with `effect = 2` (bidirectional); the
scenario — group 99 with members [1, 2, 3] and one incoming edge 5→99 —
yields 5→1, 5→2, 5→3 plus the three bidirectional member-pair edges. -/
theorem C4_group_expansion_amended (g : GroupRec) (edges : List EdgeAttrs) :
    ((replaceGroupForOne g edges).length =
      (edges.map (expansionFactor g.id g.members.length)).sum +
        g.members.length * (g.members.length - 1) / 2) ∧
    (∀ e, (e.source = g.id ∨ e.target = g.id) → ¬(e.source = g.id ∧ e.target = g.id) →
      expansionFactor g.id g.members.length e = g.members.length) ∧
    (∀ e ∈ edges, e.source = g.id → e.target ≠ g.id → ∀ m ∈ g.members,
      { e with source := m } ∈ replaceGroupForOne g edges) ∧
    (∀ e ∈ edges, e.source ≠ g.id → e.target = g.id → ∀ m ∈ g.members,
      { e with target := m } ∈ replaceGroupForOne g edges) ∧
    (∀ p ∈ pairCombinations g.members,
      populateEdgeAttributes p.1 p.2 "PComplex" ["protein complex"] ∈
        replaceGroupForOne g edges) ∧
    (∀ a b, populateEdgeAttributes a b "PComplex" ["protein complex"] =
      ⟨a, b, 2, 0, "", "PComplex"⟩) ∧
    ((pairCombinations g.members).length =
      g.members.length * (g.members.length - 1) / 2) ∧
    (replaceGroupEdges [⟨"99", ["1", "2", "3"]⟩]
        [populateEdgeAttributes "5" "99" "PPrel" ["activation"]] =
      [⟨"5", "1", 1, 0, "", "PPrel"⟩, ⟨"5", "2", 1, 0, "", "PPrel"⟩,
       ⟨"5", "3", 1, 0, "", "PPrel"⟩,
       ⟨"1", "2", 2, 0, "", "PComplex"⟩, ⟨"1", "3", 2, 0, "", "PComplex"⟩,
       ⟨"2", "3", 2, 0, "", "PComplex"⟩]) := by
  refine ⟨?_, ?_, ?_, ?_, ?_, fun a b => rfl, pairCombinations_length g.members, rfl⟩
  · rw [replaceGroupForOne, List.length_append, List.length_map,
      expandEndpoint_length, pass2_weight_sum, pairCombinations_length]
  · rintro e (hs | ht) hnot
    · have ht : ¬(e.target = g.id) := fun h => hnot ⟨hs, h⟩
      simp [expansionFactor, hs, ht]
    · by_cases hs : e.source = g.id
      · exact absurd ⟨hs, ht⟩ hnot
      · simp [expansionFactor, hs, ht]
  · intro e he hs ht m hm
    have h1 : setEndpoint true m e ∈ expandEndpoint true g.id g.members edges :=
      mem_expandEndpoint_expanded he (by simp [endpointOf, hs]) hm
    have h2 : setEndpoint true m e ∈
        expandEndpoint false g.id g.members (expandEndpoint true g.id g.members edges) :=
      mem_expandEndpoint_untouched h1 (by simp [endpointOf, setEndpoint, ht])
    exact List.mem_append_left _ h2
  · intro e he hs ht m hm
    have h1 : e ∈ expandEndpoint true g.id g.members edges :=
      mem_expandEndpoint_untouched he (by simp [endpointOf, hs])
    have h2 : setEndpoint false m e ∈
        expandEndpoint false g.id g.members (expandEndpoint true g.id g.members edges) :=
      mem_expandEndpoint_expanded h1 (by simp [endpointOf, ht]) hm
    exact List.mem_append_left _ h2
  · intro p hp
    exact List.mem_append_right _ (List.mem_map_of_mem _ hp)

/-- Witness for C4 amended at a concrete group and edge: group 99 with
members [1, 2, 3] and edge 5→99 (group id in the target only); the theorem's
hypotheses are discharged concretely, placing 5→1 and the intra-group edge
1↔2 in the expanded table, with expansion factor 3. -/
theorem C4_group_expansion_amended_witness :
    expansionFactor "99" 3 (populateEdgeAttributes "5" "99" "PPrel" ["activation"]) = 3 ∧
    { populateEdgeAttributes "5" "99" "PPrel" ["activation"] with target := "1" } ∈
      replaceGroupForOne ⟨"99", ["1", "2", "3"]⟩
        [populateEdgeAttributes "5" "99" "PPrel" ["activation"]] ∧
    populateEdgeAttributes "1" "2" "PComplex" ["protein complex"] ∈
      replaceGroupForOne ⟨"99", ["1", "2", "3"]⟩
        [populateEdgeAttributes "5" "99" "PPrel" ["activation"]] := by
  obtain ⟨-, hfac, -, htgt, hintra, -, -, -⟩ :=
    C4_group_expansion_amended ⟨"99", ["1", "2", "3"]⟩
      [populateEdgeAttributes "5" "99" "PPrel" ["activation"]]
  refine ⟨hfac _ (Or.inr (by decide)) (by decide), ?_, ?_⟩
  · exact htgt _ (List.mem_singleton_self _) (by decide) (by decide) "1" (by decide)
  · exact hintra ("1", "2") (by decide)

/-- `KEGG._get_directed_edge_attributes_as_dataframe`: append a
source/target-swapped copy of every edge whose `effect` is in
`[-2, 0, 2]`. -/
def directedEdges (edges : List EdgeAttrs) : List EdgeAttrs :=
  edges ++ (edges.filter fun e => e.effect == -2 || e.effect == 0 || e.effect == 2).map
    fun e => { e with source := e.target, target := e.source }

/-- The oriented-edge restriction `effect != 0` used by
`_infer_gene_edges_from_reactions`. -/
def orientedEdges (edges : List EdgeAttrs) : List EdgeAttrs :=
  (directedEdges edges).filter fun e => !(e.effect == 0)

/-- Body of the per-compound loop of `_infer_gene_edges_from_reactions`:
the cross product of the sources of edges into the compound with the targets
of edges out of the compound, each classified as `inferred_rxn` with
descriptor `['activation']`. -/
def inferredForCompound (oriented : List EdgeAttrs) (c : String) : List EdgeAttrs :=
  ((oriented.filter fun e => e.target == c).map fun e => e.source).flatMap fun s =>
    ((oriented.filter fun e => e.source == c).map fun e => e.target).map fun t =>
      populateEdgeAttributes s t "inferred_rxn" ["activation"]

/-- The full `inferred_edges` list of `_infer_gene_edges_from_reactions`
before deduplication. -/
def rawInferred (compoundIds : List String) (edges : List EdgeAttrs) : List EdgeAttrs :=
  compoundIds.flatMap (inferredForCompound (orientedEdges edges))

/-- `pandas.DataFrame.drop_duplicates()` on full rows, keeping first
occurrences (`seen` is the list of rows already emitted). -/
def dropDupAux (seen : List EdgeAttrs) : List EdgeAttrs → List EdgeAttrs
  | [] => []
  | e :: rest =>
    if e ∈ seen then dropDupAux seen rest else e :: dropDupAux (seen ++ [e]) rest

/-- `drop_duplicates` from an empty seen set. -/
def dropDuplicates (l : List EdgeAttrs) : List EdgeAttrs := dropDupAux [] l

/-- The consolidation step of `_infer_gene_edges_from_reactions`: over the
deduplicated list `d`, every row's `effect` is overwritten with the number
of rows of `d` connecting the same unordered pair, and only the first row
per unordered pair is kept (`seen` is the prefix already scanned). -/
def consolAux (d : List EdgeAttrs) (seen : List EdgeAttrs) : List EdgeAttrs → List EdgeAttrs
  | [] => []
  | e :: rest =>
    if seen.any fun x => sameEnds x e then consolAux d (seen ++ [e]) rest
    else { e with effect := Int.ofNat (d.countP fun x => sameEnds x e) } ::
      consolAux d (seen ++ [e]) rest

/-- Lines 175–180 of `keggx.py`: drop duplicate rows, then consolidate
unordered pairs, counting pair multiplicity into `effect`. -/
def consolidateInferred (l : List EdgeAttrs) : List EdgeAttrs :=
  consolAux (dropDuplicates l) [] (dropDuplicates l)

/-- `KEGG._infer_gene_edges_from_reactions`, parameterized by the compound
node ids and the edge table. -/
def inferGeneEdges (compoundIds : List String) (edges : List EdgeAttrs) : List EdgeAttrs :=
  consolidateInferred (rawInferred compoundIds edges)

lemma sameEnds_set_effect (e x : EdgeAttrs) (n : Int) :
    sameEnds { e with effect := n } x = sameEnds e x := rfl

lemma sameEnds_set_effect_right (e x : EdgeAttrs) (n : Int) :
    sameEnds x { e with effect := n } = sameEnds x e := rfl

lemma dropDupAux_subset :
    ∀ (l seen : List EdgeAttrs) (e : EdgeAttrs),
      e ∈ dropDupAux seen l → e ∈ l ∧ e ∉ seen := by
  intro l
  induction l with
  | nil => intro seen e he; exact absurd he (List.not_mem_nil e)
  | cons a rest ih =>
    intro seen e he
    by_cases ha : a ∈ seen
    · rw [dropDupAux, if_pos ha] at he
      obtain ⟨h1, h2⟩ := ih seen e he
      exact ⟨List.mem_cons_of_mem a h1, h2⟩
    · rw [dropDupAux, if_neg ha] at he
      rcases List.mem_cons.mp he with rfl | he'
      · exact ⟨List.mem_cons_self e rest, ha⟩
      · obtain ⟨h1, h2⟩ := ih (seen ++ [a]) e he'
        exact ⟨List.mem_cons_of_mem a h1,
          fun hs => h2 (List.mem_append_left _ hs)⟩

lemma dropDupAux_nodup :
    ∀ (l seen : List EdgeAttrs), (dropDupAux seen l).Nodup := by
  intro l
  induction l with
  | nil => intro seen; exact List.nodup_nil
  | cons a rest ih =>
    intro seen
    by_cases ha : a ∈ seen
    · rw [dropDupAux, if_pos ha]
      exact ih seen
    · rw [dropDupAux, if_neg ha]
      refine List.nodup_cons.mpr ⟨?_, ih (seen ++ [a])⟩
      intro hmem
      exact (dropDupAux_subset rest (seen ++ [a]) a hmem).2
        (List.mem_append_right _ (List.mem_singleton_self a))

lemma dropDupAux_complete :
    ∀ (l seen : List EdgeAttrs) (e : EdgeAttrs),
      e ∈ l → e ∈ seen ∨ e ∈ dropDupAux seen l := by
  intro l
  induction l with
  | nil => intro seen e he; exact absurd he (List.not_mem_nil e)
  | cons a rest ih =>
    intro seen e he
    by_cases ha : a ∈ seen
    · rw [dropDupAux, if_pos ha]
      rcases List.mem_cons.mp he with rfl | he'
      · exact Or.inl ha
      · exact ih seen e he'
    · rw [dropDupAux, if_neg ha]
      rcases List.mem_cons.mp he with rfl | he'
      · exact Or.inr (List.mem_cons_self e _)
      · rcases ih (seen ++ [a]) e he' with h | h
        · rcases List.mem_append.mp h with h' | h'
          · exact Or.inl h'
          · exact Or.inr (List.mem_singleton.mp h' ▸ List.mem_cons_self a _)
        · exact Or.inr (List.mem_cons_of_mem _ h)

lemma consolAux_mem_spec (d : List EdgeAttrs) :
    ∀ (l seen : List EdgeAttrs) (e : EdgeAttrs),
      e ∈ consolAux d seen l →
      ∃ x ∈ l, e = { x with effect := Int.ofNat (d.countP fun y => sameEnds y x) } := by
  intro l
  induction l with
  | nil => intro seen e he; exact absurd he (List.not_mem_nil e)
  | cons a rest ih =>
    intro seen e he
    by_cases ha : (seen.any fun x => sameEnds x a) = true
    · rw [consolAux, if_pos ha] at he
      obtain ⟨x, hx, hex⟩ := ih (seen ++ [a]) e he
      exact ⟨x, List.mem_cons_of_mem a hx, hex⟩
    · rw [consolAux, if_neg ha] at he
      rcases List.mem_cons.mp he with rfl | he'
      · exact ⟨a, List.mem_cons_self a rest, rfl⟩
      · obtain ⟨x, hx, hex⟩ := ih (seen ++ [a]) e he'
        exact ⟨x, List.mem_cons_of_mem a hx, hex⟩

lemma consolAux_count (d : List EdgeAttrs) :
    ∀ (l seen : List EdgeAttrs) (x : EdgeAttrs),
      ((seen.any fun y => sameEnds y x) = true →
        (consolAux d seen l).countP (fun e => sameEnds e x) = 0) ∧
      (consolAux d seen l).countP (fun e => sameEnds e x) ≤ 1 := by
  intro l
  induction l with
  | nil => intro seen x; exact ⟨fun _ => rfl, by simp [consolAux]⟩
  | cons a rest ih =>
    intro seen x
    by_cases ha : (seen.any fun y => sameEnds y a) = true
    · rw [consolAux, if_pos ha]
      refine ⟨fun hx => (ih (seen ++ [a]) x).1 ?_, (ih (seen ++ [a]) x).2⟩
      rw [List.any_append]
      rw [hx]
      rfl
    · rw [consolAux, if_neg ha]
      have hhead : ∀ hax : sameEnds a x = true, (seen.any fun y => sameEnds y x) = false := by
        intro hax
        cases hb : seen.any fun y => sameEnds y x with
        | false => rfl
        | true =>
          exfalso
          obtain ⟨y, hy, hyx⟩ := List.any_eq_true.mp hb
          have hyx' : sameEnds y x = true := by simpa using hyx
          have hya : sameEnds y a = true :=
            sameEnds_trans hyx' (sameEnds_symm a x ▸ hax)
          have hcontra : (seen.any fun z => sameEnds z a) = true :=
            List.any_eq_true.mpr ⟨y, hy, hya⟩
          exact ha hcontra
      constructor
      · intro hx
        rw [List.countP_cons]
        have hax : sameEnds a x = false := by
          cases hc : sameEnds a x with
          | false => rfl
          | true => rw [hhead hc] at hx; exact absurd hx (by decide)
        have htail : (consolAux d (seen ++ [a]) rest).countP (fun e => sameEnds e x) = 0 := by
          refine (ih (seen ++ [a]) x).1 ?_
          rw [List.any_append, hx]
          rfl
        simp [htail, sameEnds_set_effect, hax]
      · rw [List.countP_cons]
        cases hc : sameEnds a x with
        | true =>
          have htail : (consolAux d (seen ++ [a]) rest).countP (fun e => sameEnds e x) = 0 := by
            refine (ih (seen ++ [a]) x).1 ?_
            rw [List.any_append]
            have : [a].any (fun y => sameEnds y x) = true := by simp [hc]
            rw [this]
            simp
          simp [htail, sameEnds_set_effect, hc]
        | false =>
          have := (ih (seen ++ [a]) x).2
          simp only [sameEnds_set_effect, hc]
          simpa using this

lemma consolAux_exists (d : List EdgeAttrs) :
    ∀ (l seen : List EdgeAttrs) (x : EdgeAttrs), x ∈ l →
      (seen.any fun y => sameEnds y x) = true ∨
      ∃ e ∈ consolAux d seen l, sameEnds e x = true := by
  intro l
  induction l with
  | nil => intro seen x hx; exact absurd hx (List.not_mem_nil x)
  | cons a rest ih =>
    intro seen x hx
    by_cases ha : (seen.any fun y => sameEnds y a) = true
    · rw [consolAux, if_pos ha]
      rcases List.mem_cons.mp hx with rfl | hx'
      · exact Or.inl ha
      · rcases ih (seen ++ [a]) x hx' with h | h
        · rw [List.any_append] at h
          rcases Bool.or_eq_true_iff.mp h with h' | h'
          · exact Or.inl h'
          · have hax : sameEnds a x = true := by simpa using h'
            obtain ⟨y, hy, hya⟩ := List.any_eq_true.mp ha
            have hya' : sameEnds y a = true := by simpa using hya
            exact Or.inl (List.any_eq_true.mpr
              ⟨y, hy, by simpa using sameEnds_trans hya' hax⟩)
        · exact Or.inr h
    · rw [consolAux, if_neg ha]
      rcases List.mem_cons.mp hx with rfl | hx'
      · exact Or.inr ⟨_, List.mem_cons_self _ _, by
          rw [sameEnds_set_effect]
          exact sameEnds_refl x⟩
      · rcases ih (seen ++ [a]) x hx' with h | h
        · rw [List.any_append] at h
          rcases Bool.or_eq_true_iff.mp h with h' | h'
          · exact Or.inl h'
          · have hax : sameEnds a x = true := by simpa using h'
            exact Or.inr ⟨_, List.mem_cons_self _ _, by
              rw [sameEnds_set_effect]
              exact hax⟩
        · obtain ⟨e, he, hex⟩ := h
          exact Or.inr ⟨e, List.mem_cons_of_mem _ he, hex⟩

lemma rawInferred_shape (cids : List String) (edges : List EdgeAttrs) :
    ∀ e ∈ rawInferred cids edges, ∃ s t, e = ⟨s, t, 1, 0, "", "inferred_rxn"⟩ := by
  intro e he
  obtain ⟨c, _, hin⟩ := List.mem_flatMap.mp he
  obtain ⟨s, _, hm⟩ := List.mem_flatMap.mp hin
  obtain ⟨t, _, rfl⟩ := List.mem_map.mp hm
  exact ⟨s, t, rfl⟩

lemma nodup_le_one {α : Type} (l : List α) (w : α) (hn : l.Nodup)
    (h : ∀ x ∈ l, x = w) : l.length ≤ 1 := by
  cases l with
  | nil => simp
  | cons a l =>
    have hl : l = [] := by
      rw [List.eq_nil_iff_forall_not_mem]
      intro x hx
      have hxw : x = w := h x (List.mem_cons_of_mem a hx)
      have haw : a = w := h a (List.mem_cons_self a l)
      exact (List.nodup_cons.mp hn).1 (by rw [haw, ← hxw]; exact hx)
    simp [hl]

lemma nodup_le_two {α : Type} (l : List α) (u v : α) (hn : l.Nodup)
    (h : ∀ x ∈ l, x = u ∨ x = v) : l.length ≤ 2 := by
  cases l with
  | nil => simp
  | cons a l =>
    have htail : l.length ≤ 1 := by
      rcases h a (List.mem_cons_self a l) with ha | ha
      · refine nodup_le_one l v (List.nodup_cons.mp hn).2 fun x hx => ?_
        rcases h x (List.mem_cons_of_mem a hx) with hx' | hx'
        · exact absurd (by rw [ha, ← hx']; exact hx) (List.nodup_cons.mp hn).1
        · exact hx'
      · refine nodup_le_one l u (List.nodup_cons.mp hn).2 fun x hx => ?_
        rcases h x (List.mem_cons_of_mem a hx) with hx' | hx'
        · exact hx'
        · exact absurd (by rw [ha, ← hx']; exact hx) (List.nodup_cons.mp hn).1
    simp only [List.length_cons]
    omega

lemma count_pairs_le_two (d : List EdgeAttrs) (hn : d.Nodup)
    (hshape : ∀ e ∈ d, ∃ s t, e = ⟨s, t, 1, 0, "", "inferred_rxn"⟩) (x : EdgeAttrs) :
    (d.countP fun y => sameEnds y x) ≤ 2 := by
  rw [List.countP_eq_length_filter]
  refine nodup_le_two _ (⟨x.source, x.target, 1, 0, "", "inferred_rxn"⟩ : EdgeAttrs)
    (⟨x.target, x.source, 1, 0, "", "inferred_rxn"⟩ : EdgeAttrs) (hn.filter _) ?_
  intro y hy
  obtain ⟨hyd, hpy⟩ := List.mem_filter.mp hy
  obtain ⟨s, t, rfl⟩ := hshape y hyd
  simp only [sameEnds, decide_eq_true_eq] at hpy
  rcases hpy with ⟨h1, h2⟩ | ⟨h1, h2⟩
  · exact Or.inl (by rw [show s = x.source from h1, show t = x.target from h2])
  · exact Or.inr (by rw [show s = x.target from h1, show t = x.source from h2])

lemma inferGeneEdges_exists_of_mem_raw (cids : List String) (edges : List EdgeAttrs)
    (x : EdgeAttrs) (hx : x ∈ rawInferred cids edges) :
    ∃ e ∈ inferGeneEdges cids edges, sameEnds e x = true := by
  have hd : x ∈ dropDuplicates (rawInferred cids edges) :=
    (dropDupAux_complete _ [] x hx).resolve_left (List.not_mem_nil x)
  rcases consolAux_exists (dropDuplicates (rawInferred cids edges))
      (dropDuplicates (rawInferred cids edges)) [] x hd with h | h
  · exact absurd h (by simp)
  · exact h

lemma inferGeneEdges_count_le_one (cids : List String) (edges : List EdgeAttrs)
    (x : EdgeAttrs) :
    (inferGeneEdges cids edges).countP (fun e => sameEnds e x) ≤ 1 :=
  (consolAux_count (dropDuplicates (rawInferred cids edges))
    (dropDuplicates (rawInferred cids edges)) [] x).2

lemma inferGeneEdges_effect (cids : List String) (edges : List EdgeAttrs)
    (e : EdgeAttrs) (he : e ∈ inferGeneEdges cids edges) :
    e.type = "inferred_rxn" ∧ 1 ≤ e.effect ∧ e.effect ≤ 2 ∧
    e.effect = Int.ofNat ((dropDuplicates (rawInferred cids edges)).countP
      fun y => sameEnds y e) := by
  obtain ⟨x, hx, rfl⟩ := consolAux_mem_spec (dropDuplicates (rawInferred cids edges))
    (dropDuplicates (rawInferred cids edges)) [] e he
  have hxraw : x ∈ rawInferred cids edges := (dropDupAux_subset _ [] x hx).1
  obtain ⟨s, t, hst⟩ := rawInferred_shape cids edges x hxraw
  have hcnt1 : 0 < (dropDuplicates (rawInferred cids edges)).countP
      fun y => sameEnds y x :=
    List.countP_pos_iff.mpr ⟨x, hx, sameEnds_refl x⟩
  have hcnt2 : ((dropDuplicates (rawInferred cids edges)).countP
      fun y => sameEnds y x) ≤ 2 := by
    refine count_pairs_le_two _ (dropDupAux_nodup _ []) (fun y hy => ?_) x
    exact rawInferred_shape cids edges y (dropDupAux_subset _ [] y hy).1
  refine ⟨by rw [hst], ?_, ?_, rfl⟩
  · simp only [Int.ofNat_eq_coe]
    omega
  · simp only [Int.ofNat_eq_coe]
    omega

/-- C5 counterexample: the claim says the surviving inferred edge's `effect`
equals the number of independent compound-mediated supporting paths even
when several distinct compounds mediate the same pair.  With compounds 91
and 92 both mediating 1→2, the raw inference list has two supporting
entries, but `drop_duplicates` collapses them before counting, so the
surviving edge carries `effect = 1`, not 2. -/
theorem C5_inferred_effect_counterexample :
    rawInferred ["91", "92"]
      [populateEdgeAttributes "1" "91" "rn1" ["activation"],
       populateEdgeAttributes "91" "2" "rn1" ["activation"],
       populateEdgeAttributes "1" "92" "rn2" ["activation"],
       populateEdgeAttributes "92" "2" "rn2" ["activation"]] =
      [⟨"1", "2", 1, 0, "", "inferred_rxn"⟩, ⟨"1", "2", 1, 0, "", "inferred_rxn"⟩] ∧
    inferGeneEdges ["91", "92"]
      [populateEdgeAttributes "1" "91" "rn1" ["activation"],
       populateEdgeAttributes "91" "2" "rn1" ["activation"],
       populateEdgeAttributes "1" "92" "rn2" ["activation"],
       populateEdgeAttributes "92" "2" "rn2" ["activation"]] =
      [⟨"1", "2", 1, 0, "", "inferred_rxn"⟩] ∧
    (1 : Int) ≠ 2 :=
  ⟨rfl, rfl, by decide⟩

/-- C5 amended: after consolidation exactly one inferred edge survives per
unordered endpoint pair (every raw inferred pair is represented exactly
once), and the surviving edge's `effect` equals the number of *distinct
ordered source–target rows remaining after duplicate removal* that connect
its unordered pair — an integer that is 1 or 2 (two only when both
orientations survive), not the number of independent compound-mediated
supporting paths: several compounds mediating the same ordered pair are
collapsed by `drop_duplicates` before counting. -/
theorem C5_inferred_dedup_amended (cids : List String) (edges : List EdgeAttrs) :
    (∀ x ∈ rawInferred cids edges,
      (inferGeneEdges cids edges).countP (fun e => sameEnds e x) = 1) ∧
    (∀ e ∈ inferGeneEdges cids edges,
      e.effect = Int.ofNat ((dropDuplicates (rawInferred cids edges)).countP
        fun y => sameEnds y e) ∧ 1 ≤ e.effect ∧ e.effect ≤ 2) := by
  constructor
  · intro x hx
    have h1 := inferGeneEdges_count_le_one cids edges x
    obtain ⟨e, he, hex⟩ := inferGeneEdges_exists_of_mem_raw cids edges x hx
    have h2 : 0 < (inferGeneEdges cids edges).countP (fun e => sameEnds e x) :=
      List.countP_pos_iff.mpr ⟨e, he, hex⟩
    omega
  · intro e he
    obtain ⟨_, h1, h2, h3⟩ := inferGeneEdges_effect cids edges e he
    exact ⟨h3, h1, h2⟩

/-- Witness for C5 amended at a concrete input: one compound 91 mediating
1→2; the raw pair is represented exactly once in the output and the
surviving edge's effect is the post-deduplication row count for its pair. -/
theorem C5_inferred_dedup_amended_witness :
    (inferGeneEdges ["91"]
      [populateEdgeAttributes "1" "91" "rn1" ["activation"],
       populateEdgeAttributes "91" "2" "rn1" ["activation"]]).countP
      (fun e => sameEnds e (populateEdgeAttributes "1" "2" "inferred_rxn" ["activation"])) = 1 ∧
    ((⟨"1", "2", 1, 0, "", "inferred_rxn"⟩ : EdgeAttrs).effect =
      Int.ofNat ((dropDuplicates (rawInferred ["91"]
        [populateEdgeAttributes "1" "91" "rn1" ["activation"],
         populateEdgeAttributes "91" "2" "rn1" ["activation"]])).countP
        fun y => sameEnds y ⟨"1", "2", 1, 0, "", "inferred_rxn"⟩) ∧
      1 ≤ (⟨"1", "2", 1, 0, "", "inferred_rxn"⟩ : EdgeAttrs).effect ∧
      (⟨"1", "2", 1, 0, "", "inferred_rxn"⟩ : EdgeAttrs).effect ≤ 2) :=
  ⟨(C5_inferred_dedup_amended ["91"]
      [populateEdgeAttributes "1" "91" "rn1" ["activation"],
       populateEdgeAttributes "91" "2" "rn1" ["activation"]]).1 _ (by decide),
   (C5_inferred_dedup_amended ["91"]
      [populateEdgeAttributes "1" "91" "rn1" ["activation"],
       populateEdgeAttributes "91" "2" "rn1" ["activation"]]).2 _ (by decide)⟩

/-- C6 counterexample: the claim promises an inferred edge *A→B* whenever
oriented edges A→C and C→B exist for a compound C.  Here compound 91
produces the inferred pair 2→1 first, and compound 92 then produces 1→2;
consolidation keeps only the first orientation, so although oriented edges
1→92 and 92→2 exist and 92 is a compound, no output edge has source 1 and
target 2 — the pair survives only as 2→1 (with effect 2). -/
theorem C6_inference_counterexample :
    inferGeneEdges ["91", "92"]
      [populateEdgeAttributes "2" "91" "rn1" ["activation"],
       populateEdgeAttributes "91" "1" "rn1" ["activation"],
       populateEdgeAttributes "1" "92" "rn2" ["activation"],
       populateEdgeAttributes "92" "2" "rn2" ["activation"]] =
      [⟨"2", "1", 2, 0, "", "inferred_rxn"⟩] ∧
    (∃ e1 ∈ orientedEdges
      [populateEdgeAttributes "2" "91" "rn1" ["activation"],
       populateEdgeAttributes "91" "1" "rn1" ["activation"],
       populateEdgeAttributes "1" "92" "rn2" ["activation"],
       populateEdgeAttributes "92" "2" "rn2" ["activation"]],
      e1.source = "1" ∧ e1.target = "92") ∧
    (∃ e2 ∈ orientedEdges
      [populateEdgeAttributes "2" "91" "rn1" ["activation"],
       populateEdgeAttributes "91" "1" "rn1" ["activation"],
       populateEdgeAttributes "1" "92" "rn2" ["activation"],
       populateEdgeAttributes "92" "2" "rn2" ["activation"]],
      e2.source = "92" ∧ e2.target = "2") ∧
    ("92" ∈ (["91", "92"] : List String)) ∧
    ¬(∃ e ∈ inferGeneEdges ["91", "92"]
      [populateEdgeAttributes "2" "91" "rn1" ["activation"],
       populateEdgeAttributes "91" "1" "rn1" ["activation"],
       populateEdgeAttributes "1" "92" "rn2" ["activation"],
       populateEdgeAttributes "92" "2" "rn2" ["activation"]],
      e.source = "1" ∧ e.target = "2") := by
  refine ⟨rfl, by decide, by decide, by decide, by decide⟩

/-- C6 amended: whenever oriented edges A→C and C→B exist (effect ≠ 0 after
bidirectional canonicalization) and C is a compound node, the inference
output contains an inferred edge *connecting the unordered pair {A, B}* (in
one of the two orientations — the orientation produced first survives
consolidation) of category `inferred_rxn` with multiplicity ≥ 1; this
includes the self-loop case A = B; and a compound with no oriented in-edges
or no oriented out-edges contributes no inferred edges. -/
theorem C6_inference_existence_amended :
    (∀ (cids : List String) (edges : List EdgeAttrs) (A B C : String),
      C ∈ cids →
      (∃ e1 ∈ orientedEdges edges, e1.source = A ∧ e1.target = C) →
      (∃ e2 ∈ orientedEdges edges, e2.source = C ∧ e2.target = B) →
      ∃ e ∈ inferGeneEdges cids edges,
        pairMatches e A B = true ∧ e.type = "inferred_rxn" ∧ 1 ≤ e.effect) ∧
    (∀ (edges : List EdgeAttrs) (c : String),
      (((orientedEdges edges).filter fun e => e.target == c) = [] ∨
        ((orientedEdges edges).filter fun e => e.source == c) = []) →
      inferredForCompound (orientedEdges edges) c = []) := by
  constructor
  · rintro cids edges A B C hC ⟨e1, he1, hs1, ht1⟩ ⟨e2, he2, hs2, ht2⟩
    have hAmem : A ∈ ((orientedEdges edges).filter fun e => e.target == C).map
        fun e => e.source :=
      List.mem_map.mpr ⟨e1, List.mem_filter.mpr ⟨he1, by simp [ht1]⟩, hs1⟩
    have hBmem : B ∈ ((orientedEdges edges).filter fun e => e.source == C).map
        fun e => e.target :=
      List.mem_map.mpr ⟨e2, List.mem_filter.mpr ⟨he2, by simp [hs2]⟩, ht2⟩
    have hraw : populateEdgeAttributes A B "inferred_rxn" ["activation"] ∈
        rawInferred cids edges :=
      List.mem_flatMap.mpr ⟨C, hC,
        List.mem_flatMap.mpr ⟨A, hAmem, List.mem_map.mpr ⟨B, hBmem, rfl⟩⟩⟩
    obtain ⟨e, he, hex⟩ := inferGeneEdges_exists_of_mem_raw cids edges _ hraw
    obtain ⟨htype, h1, _, _⟩ := inferGeneEdges_effect cids edges e he
    exact ⟨e, he, hex, htype, h1⟩
  · rintro edges c (h | h) <;> simp [inferredForCompound, h]

/-- Witness for C6 amended at a concrete input, including the self-loop
case A = B = 1 through compound 91 (gene 1 both produces and consumes the
compound), and the empty-contribution case for a compound with no oriented
out-edges. -/
theorem C6_inference_existence_amended_witness :
    (∃ e ∈ inferGeneEdges ["91"]
      [populateEdgeAttributes "1" "91" "rn1" ["activation"],
       populateEdgeAttributes "91" "1" "rn1" ["activation"]],
      pairMatches e "1" "1" = true ∧ e.type = "inferred_rxn" ∧ 1 ≤ e.effect) ∧
    inferredForCompound
      (orientedEdges [populateEdgeAttributes "1" "91" "rn1" ["activation"]]) "91" = [] :=
  ⟨C6_inference_existence_amended.1 ["91"]
      [populateEdgeAttributes "1" "91" "rn1" ["activation"],
       populateEdgeAttributes "91" "1" "rn1" ["activation"]]
      "1" "1" "91" (by decide) (by decide) (by decide),
   C6_inference_existence_amended.2
      [populateEdgeAttributes "1" "91" "rn1" ["activation"]] "91"
      (Or.inr (by decide))⟩

lemma pairCombinations_mem :
    ∀ (l : List String) (a b : String), (a, b) ∈ pairCombinations l → a ∈ l ∧ b ∈ l := by
  intro l
  induction l with
  | nil => intro a b h; exact absurd h (List.not_mem_nil _)
  | cons x xs ih =>
    intro a b h
    rcases List.mem_append.mp h with h' | h'
    · obtain ⟨y, hy, hxy⟩ := List.mem_map.mp h'
      obtain ⟨rfl, rfl⟩ := Prod.mk.injEq .. ▸ hxy
      exact ⟨List.mem_cons_self _ _, List.mem_cons_of_mem _ hy⟩
    · obtain ⟨ha, hb⟩ := ih a b h'
      exact ⟨List.mem_cons_of_mem _ ha, List.mem_cons_of_mem _ hb⟩

lemma mem_expandEndpoint_cases {isS : Bool} {gid : String} {ms : List String}
    {L : List EdgeAttrs} {e : EdgeAttrs} (he : e ∈ expandEndpoint isS gid ms L) :
    (∃ x ∈ L, ∃ m ∈ ms, e = setEndpoint isS m x) ∨ e ∈ L := by
  rcases List.mem_append.mp he with h | h
  · obtain ⟨x, hx, hm⟩ := List.mem_flatMap.mp h
    obtain ⟨m, hms, rfl⟩ := List.mem_map.mp hm
    exact Or.inl ⟨x, (List.mem_filter.mp hx).1, m, hms, rfl⟩
  · exact Or.inr (List.mem_filter.mp h).1

lemma expandEndpoint_avoid {isS : Bool} {gid X : String} {ms : List String}
    {L : List EdgeAttrs} (hms : ∀ m ∈ ms, m ≠ X)
    (hL : ∀ e ∈ L, e.source ≠ X ∧ e.target ≠ X) :
    ∀ e ∈ expandEndpoint isS gid ms L, e.source ≠ X ∧ e.target ≠ X := by
  intro e he
  rcases mem_expandEndpoint_cases he with ⟨x, hx, m, hm, rfl⟩ | h
  · cases isS with
    | true => exact ⟨hms m hm, (hL x hx).2⟩
    | false => exact ⟨(hL x hx).1, hms m hm⟩
  · exact hL e h

lemma expandEndpoint_elim {isS : Bool} {gid : String} {ms : List String}
    {L : List EdgeAttrs} (hms : ∀ m ∈ ms, m ≠ gid) :
    ∀ e ∈ expandEndpoint isS gid ms L, endpointOf isS e ≠ gid := by
  intro e he
  rcases List.mem_append.mp he with h | h
  · obtain ⟨x, _, hm⟩ := List.mem_flatMap.mp h
    obtain ⟨m, hms', rfl⟩ := List.mem_map.mp hm
    cases isS with
    | true => exact hms m hms'
    | false => exact hms m hms'
  · have := (List.mem_filter.mp h).2
    simp only [Bool.not_eq_eq_eq_not, Bool.not_true, beq_eq_false_iff_ne, ne_eq] at this
    exact this

lemma expandEndpoint_false_source {gid : String} {ms : List String}
    {L : List EdgeAttrs} {e : EdgeAttrs} (he : e ∈ expandEndpoint false gid ms L) :
    ∃ x ∈ L, e.source = x.source := by
  rcases mem_expandEndpoint_cases he with ⟨x, hx, m, _, rfl⟩ | h
  · exact ⟨x, hx, rfl⟩
  · exact ⟨e, h, rfl⟩

lemma replaceGroupForOne_elim {g : GroupRec} {edges : List EdgeAttrs}
    (hms : ∀ m ∈ g.members, m ≠ g.id) :
    ∀ e ∈ replaceGroupForOne g edges, e.source ≠ g.id ∧ e.target ≠ g.id := by
  intro e he
  rcases List.mem_append.mp he with h | h
  · constructor
    · obtain ⟨x, hx, hsx⟩ := expandEndpoint_false_source h
      have := @expandEndpoint_elim true g.id g.members edges hms x hx
      rw [hsx]
      exact this
    · exact @expandEndpoint_elim false g.id g.members
        (expandEndpoint true g.id g.members edges) hms e h
  · obtain ⟨p, hp, rfl⟩ := List.mem_map.mp h
    obtain ⟨ha, hb⟩ := pairCombinations_mem g.members p.1 p.2 (by
      cases p
      exact hp)
    exact ⟨hms p.1 ha, hms p.2 hb⟩

lemma replaceGroupForOne_avoid {g : GroupRec} {X : String} {edges : List EdgeAttrs}
    (hms : ∀ m ∈ g.members, m ≠ X)
    (hedges : ∀ e ∈ edges, e.source ≠ X ∧ e.target ≠ X) :
    ∀ e ∈ replaceGroupForOne g edges, e.source ≠ X ∧ e.target ≠ X := by
  intro e he
  rcases List.mem_append.mp he with h | h
  · exact expandEndpoint_avoid hms (expandEndpoint_avoid hms hedges) e h
  · obtain ⟨p, hp, rfl⟩ := List.mem_map.mp h
    obtain ⟨ha, hb⟩ := pairCombinations_mem g.members p.1 p.2 (by
      cases p
      exact hp)
    exact ⟨hms p.1 ha, hms p.2 hb⟩

lemma replaceGroupEdges_avoid :
    ∀ (groups : List GroupRec) (X : String) (edges : List EdgeAttrs),
      (∀ g' ∈ groups, ∀ m ∈ g'.members, m ≠ X) →
      (∀ e ∈ edges, e.source ≠ X ∧ e.target ≠ X) →
      ∀ e ∈ replaceGroupEdges groups edges, e.source ≠ X ∧ e.target ≠ X := by
  intro groups
  induction groups with
  | nil => intro X edges _ hedges e he; exact hedges e he
  | cons g gs ih =>
    intro X edges hms hedges e he
    exact ih X (replaceGroupForOne g edges)
      (fun g' hg' => hms g' (List.mem_cons_of_mem g hg'))
      (replaceGroupForOne_avoid (hms g (List.mem_cons_self g gs)) hedges) e he

/-- C7 counterexample: the claim says a build in which an edge references a
node id absent from the node table fails with an `UnresolvedReference`
error.  The code performs no such check and defines no such error: with a
node table containing only ids 1 and 2, an edge referencing the absent id
42 passes through the whole edge-assembly pipeline unchanged and lands in
the final edge table. -/
theorem C7_referential_integrity_counterexample :
    replaceGroupEdges [] [populateEdgeAttributes "42" "1" "PPrel" ["activation"]] =
      [populateEdgeAttributes "42" "1" "PPrel" ["activation"]] ∧
    (populateEdgeAttributes "42" "1" "PPrel" ["activation"]).source = "42" ∧
    "42" ∉ (["1", "2"] : List String) :=
  ⟨rfl, rfl, by decide⟩

/-- C7 amended: after group expansion no edge endpoint is a group id,
provided no group member is itself a group id (flat groups, as the data
model assumes); and the pipeline performs no existence check of endpoints
against the node table — with no groups the edge table passes through
unchanged whatever ids it references, and no `UnresolvedReference` error
exists. -/
theorem C7_group_id_elimination_amended :
    (∀ (groups : List GroupRec) (edges : List EdgeAttrs),
      (∀ g' ∈ groups, ∀ m ∈ g'.members, ∀ g'' ∈ groups, m ≠ g''.id) →
      ∀ e ∈ replaceGroupEdges groups edges, ∀ g ∈ groups,
        e.source ≠ g.id ∧ e.target ≠ g.id) ∧
    (∀ edges : List EdgeAttrs, replaceGroupEdges [] edges = edges) := by
  constructor
  · intro groups
    induction groups with
    | nil => intro edges _ e _ g hg; exact absurd hg (List.not_mem_nil g)
    | cons g0 gs ih =>
      intro edges hflat e he g hg
      have he' : e ∈ replaceGroupEdges gs (replaceGroupForOne g0 edges) := he
      rcases List.mem_cons.mp hg with rfl | hg'
      · refine replaceGroupEdges_avoid gs g.id (replaceGroupForOne g edges)
          (fun g' hg' m hm =>
            hflat g' (List.mem_cons_of_mem g hg') m hm g (List.mem_cons_self g gs))
          (replaceGroupForOne_elim fun m hm =>
            hflat g (List.mem_cons_self g gs) m hm g (List.mem_cons_self g gs))
          e he'
      · exact ih (replaceGroupForOne g0 edges)
          (fun g' hg'' m hm g'' hg''' =>
            hflat g' (List.mem_cons_of_mem g0 hg'') m hm g'' (List.mem_cons_of_mem g0 hg'''))
          e he' g hg'
  · intro edges
    rfl

/-- Witness for C7 amended at a concrete input: group 99 with members
[1, 2] (no member is a group id) and edge 5→99; the expanded edge 5→1 has
no endpoint equal to the group id 99. -/
theorem C7_group_id_elimination_amended_witness :
    ({ populateEdgeAttributes "5" "99" "PPrel" ["activation"] with target := "1" }).source ≠ "99" ∧
    ({ populateEdgeAttributes "5" "99" "PPrel" ["activation"] with target := "1" }).target ≠ "99" :=
  C7_group_id_elimination_amended.1 [⟨"99", ["1", "2"]⟩]
    [populateEdgeAttributes "5" "99" "PPrel" ["activation"]]
    (by decide)
    { populateEdgeAttributes "5" "99" "PPrel" ["activation"] with target := "1" }
    (by decide)
    ⟨"99", ["1", "2"]⟩ (by decide)

/-- A parsed XML element: tag, attribute list, and child elements (the
fragment of `xml.etree.ElementTree` that `KEGG.__init__` uses). -/
structure XMLElem where
  tag : String
  attrs : List (String × String)
  children : List XMLElem

/-- `Element.get(key)`: the attribute's value, or `None` when absent. -/
def attrGet (x : XMLElem) (key : String) : Option String :=
  (x.attrs.find? fun p => p.1 == key).map fun p => p.2

/-- `Element.find(tag)`: the first direct child with the given tag, or
`None`. -/
def findChild (x : XMLElem) (tag : String) : Option XMLElem :=
  x.children.find? fun c => c.tag == tag

/-- `root.findall('entry')`: the direct children tagged `entry`. -/
def entriesOf (root : XMLElem) : List XMLElem :=
  root.children.filter fun c => c.tag == "entry"

/-- `entry.find('graphics').attrib`: raises Python's untyped
`AttributeError` (modelled as `Except.error "AttributeError"`) when the
entry has no graphics child, since `find` then returns `None`. -/
def entryGraphicsAttrs (entry : XMLElem) : Except String (List (String × String)) :=
  match findChild entry "graphics" with
  | some g => Except.ok g.attrs
  | none => Except.error "AttributeError"

/-- The list comprehension
`[entry.find('graphics').attrib for entry in self._entries]` of
`_get_entry_attributes_as_dataframe`: evaluated in order, the first entry
without a graphics child raises. -/
def parseEntries : List XMLElem → Except String (List (List (String × String)))
  | [] => Except.ok []
  | e :: rest =>
    match entryGraphicsAttrs e with
    | Except.error msg => Except.error msg
    | Except.ok a =>
      match parseEntries rest with
      | Except.error msg => Except.error msg
      | Except.ok rest' => Except.ok (a :: rest')

/-- The document-level parsing performed by `KEGG.__init__`: the pathway
attributes `name`, `org`, `number` are read with `.get` (yielding `None`
when absent, never an error), and the entry graphics attributes are
collected (raising on an entry without graphics). -/
def buildHeader (root : XMLElem) :
    Except String ((Option String × Option String × Option String) ×
      List (List (String × String))) :=
  match parseEntries (entriesOf root) with
  | Except.error msg => Except.error msg
  | Except.ok gs =>
      Except.ok ((attrGet root "name", attrGet root "org", attrGet root "number"), gs)

lemma parseEntries_ok_or_attr_error :
    ∀ entries : List XMLElem,
      (∃ gs, parseEntries entries = Except.ok gs) ∨
      parseEntries entries = Except.error "AttributeError" := by
  intro entries
  induction entries with
  | nil => exact Or.inl ⟨[], rfl⟩
  | cons e rest ih =>
    cases hg : findChild e "graphics" with
    | none =>
      refine Or.inr ?_
      simp [parseEntries, entryGraphicsAttrs, hg]
    | some g =>
      rcases ih with ⟨gs, hgs⟩ | herr
      · exact Or.inl ⟨g.attrs :: gs, by simp [parseEntries, entryGraphicsAttrs, hg, hgs]⟩
      · refine Or.inr ?_
        simp [parseEntries, entryGraphicsAttrs, hg, herr]

lemma parseEntries_error_iff :
    ∀ entries : List XMLElem,
      parseEntries entries = Except.error "AttributeError" ↔
      ∃ e ∈ entries, findChild e "graphics" = none := by
  intro entries
  induction entries with
  | nil =>
    constructor
    · intro h; exact absurd h (by simp [parseEntries])
    · rintro ⟨e, he, -⟩; exact absurd he (List.not_mem_nil e)
  | cons e rest ih =>
    cases hg : findChild e "graphics" with
    | none =>
      constructor
      · intro _
        exact ⟨e, List.mem_cons_self e rest, hg⟩
      · intro _
        simp [parseEntries, entryGraphicsAttrs, hg]
    | some g =>
      constructor
      · intro h
        simp only [parseEntries, entryGraphicsAttrs, hg] at h
        rcases hrest : parseEntries rest with msg | gs
        · obtain ⟨e', he', hge'⟩ := ih.mp (by
            rw [hrest] at h
            rw [hrest]
            simpa using h)
          exact ⟨e', List.mem_cons_of_mem e he', hge'⟩
        · rw [hrest] at h
          exact absurd h (by simp)
      · rintro ⟨e', he', hge'⟩
        rcases List.mem_cons.mp he' with rfl | he''
        · rw [hge'] at hg
          exact absurd hg (by simp)
        · have herr := ih.mpr ⟨e', he'', hge'⟩
          simp [parseEntries, entryGraphicsAttrs, hg, herr]

/-- C8 counterexample: the claim says parsing fails with a
`MalformedDocument` error when the pathway-level attributes `name`,
`organism` (`org`), or `number` are absent.  For a document whose root
carries none of these attributes but whose entries all have graphics
children, the build succeeds, returning `None` for each metadata field —
there is no validation and no `MalformedDocument` error in the code. -/
theorem C8_parser_counterexample :
    attrGet ⟨"pathway", [], [⟨"entry", [("id", "1")],
      [⟨"graphics", [("name", "G1")], []⟩]⟩]⟩ "name" = none ∧
    attrGet ⟨"pathway", [], [⟨"entry", [("id", "1")],
      [⟨"graphics", [("name", "G1")], []⟩]⟩]⟩ "org" = none ∧
    attrGet ⟨"pathway", [], [⟨"entry", [("id", "1")],
      [⟨"graphics", [("name", "G1")], []⟩]⟩]⟩ "number" = none ∧
    buildHeader ⟨"pathway", [], [⟨"entry", [("id", "1")],
      [⟨"graphics", [("name", "G1")], []⟩]⟩]⟩ =
      Except.ok ((none, none, none), [[("name", "G1")]]) :=
  ⟨rfl, rfl, rfl, rfl⟩

/-- C8 amended: the parser performs no validation of the pathway-level
attributes — absent `name`/`org`/`number` are carried as `None` without
error, and the build succeeds whenever every entry has a graphics child;
an entry lacking a graphics sub-element makes the whole build fail with
Python's untyped `AttributeError` (there is no `MalformedDocument` error
class and no partial-success mode). -/
theorem C8_parser_amended :
    (∀ root : XMLElem,
      (∀ e ∈ entriesOf root, findChild e "graphics" ≠ none) →
      ∃ gs, buildHeader root =
        Except.ok ((attrGet root "name", attrGet root "org", attrGet root "number"), gs)) ∧
    (∀ root : XMLElem,
      (∃ e ∈ entriesOf root, findChild e "graphics" = none) →
      buildHeader root = Except.error "AttributeError") := by
  constructor
  · intro root hall
    rcases parseEntries_ok_or_attr_error (entriesOf root) with ⟨gs, hgs⟩ | herr
    · exact ⟨gs, by simp [buildHeader, hgs]⟩
    · obtain ⟨e, he, hge⟩ := (parseEntries_error_iff (entriesOf root)).mp herr
      exact absurd hge (hall e he)
  · intro root hex
    have herr := (parseEntries_error_iff (entriesOf root)).mpr hex
    simp [buildHeader, herr]

/-- Witness for C8 amended at concrete documents: a root with no metadata
attributes whose sole entry has graphics builds successfully; a root whose
sole entry lacks graphics fails with the untyped attribute error. -/
theorem C8_parser_amended_witness :
    (∃ gs, buildHeader ⟨"pathway", [("name", "p1")], [⟨"entry", [("id", "1")],
        [⟨"graphics", [("name", "G1")], []⟩]⟩]⟩ =
      Except.ok ((attrGet ⟨"pathway", [("name", "p1")], [⟨"entry", [("id", "1")],
          [⟨"graphics", [("name", "G1")], []⟩]⟩]⟩ "name",
        attrGet ⟨"pathway", [("name", "p1")], [⟨"entry", [("id", "1")],
          [⟨"graphics", [("name", "G1")], []⟩]⟩]⟩ "org",
        attrGet ⟨"pathway", [("name", "p1")], [⟨"entry", [("id", "1")],
          [⟨"graphics", [("name", "G1")], []⟩]⟩]⟩ "number"), gs)) ∧
    buildHeader ⟨"pathway", [("name", "p1")],
      [⟨"entry", [("id", "1")], []⟩]⟩ = Except.error "AttributeError" := by
  constructor
  · refine C8_parser_amended.1 _ ?_
    intro e he
    have he' : e = ⟨"entry", [("id", "1")], [⟨"graphics", [("name", "G1")], []⟩]⟩ := by
      have : entriesOf ⟨"pathway", [("name", "p1")], [⟨"entry", [("id", "1")],
          [⟨"graphics", [("name", "G1")], []⟩]⟩]⟩ =
          [⟨"entry", [("id", "1")], [⟨"graphics", [("name", "G1")], []⟩]⟩] := rfl
      rw [this, List.mem_singleton] at he
      exact he
    rw [he']
    intro hnone
    exact Option.noConfusion (hnone :
      (some (⟨"graphics", [("name", "G1")], []⟩ : XMLElem) = none))
  · refine C8_parser_amended.2 _ ?_
    refine ⟨⟨"entry", [("id", "1")], []⟩, ?_, rfl⟩
    show (⟨"entry", [("id", "1")], []⟩ : XMLElem) ∈
      [(⟨"entry", [("id", "1")], []⟩ : XMLElem)]
    exact List.mem_singleton_self _

end KEGGX
